import Mathlib

/-!
Verification of the kinetic-swift object updater
(`src/kinetic_swift/obj/updater.py`, class `KineticUpdater`).

The updater sweeps a durable queue of pending container-listing updates.
Each entry records an account/container/object, an operation, headers and a
list of replica-node ids that have already acknowledged the update
(`successes`).  `process_object_update` loads one entry, attempts delivery to
every replica not yet acknowledged, and then either deletes the entry (all
replicas acknowledged), re-persists it with the extended `successes` list
(partial new progress), or leaves the store untouched.

External collaborators (the kinetic key-value store, the container ring, the
delivery transport `ObjectUpdater.object_update`, and swift's
`HeaderKeyDict`) are modelled as explicit parameters or small pure
functions; the structure of the updater's own code is translated directly.
-/

/-- A replica node as returned by the container ring's `get_nodes`: the
updater only reads the node's `id`; the remaining addressing information is
abstracted into one field. -/
structure Node where
  id : Nat
  addr : String
  deriving DecidableEq, Repr

/-- One pending update record, the msgpack-decoded value of an
`async_pending*` key.  A record missing its `successes` key is modelled as
an empty list, matching `update.get('successes', [])` (line 125). -/
structure UpdateRecord where
  account : String
  container : String
  obj : String
  op : String
  headers : List (String × String)
  successes : List Nat
  deriving DecidableEq, Repr

/-- A stored blob: either a msgpack encoding of an update record, or bytes
that `msgpack.unpackb` fails to decode (line 104). -/
inductive Blob where
  | good (update : UpdateRecord)
  | corrupt
  deriving DecidableEq, Repr

/-- Errors that can propagate out of the store and processing layer.
`deviceUnavailable` models `DiskFileDeviceUnavailable`; every other
constructor is a generic `Exception` to the handler in `run_once`. -/
inductive Err where
  | notFound
  | decodeError
  | deviceUnavailable
  | other
  deriving DecidableEq, Repr

/-- The durable queue of one device: an association list from key to blob. -/
abbrev Queue := List (String × Blob)

/-- `conn.get(key)` of the kinetic store: first binding of the key. -/
def qget : Queue → String → Option Blob
  | [], _ => none
  | p :: q, k => if p.1 = k then some p.2 else qget q k

/-- `conn.delete(key)`: remove every binding of the key
(`_unlink_update`, lines 108-111). -/
def qdel : Queue → String → Queue
  | [], _ => []
  | p :: q, k => if p.1 = k then qdel q k else p :: qdel q k

/-- `conn.put(key, blob)`: bind the key to the blob
(`_save_update`, lines 113-117). -/
def qput (q : Queue) (k : String) (b : Blob) : Queue :=
  qdel q k ++ [(k, b)]

/-- ASCII lower-casing of one character, the case fold header-key matching
uses. -/
def lower_char (c : Char) : Char :=
  if 65 ≤ c.toNat ∧ c.toNat ≤ 90 then Char.ofNat (c.toNat + 32) else c

/-- The case-folded character sequence of a header key. -/
def lower_key (s : String) : List Char := s.data.map lower_char

/-- Modelled from the spec: swift's `HeaderKeyDict` (external collaborator,
`swift.common.swob`) is described as a duck-typed header mapping with
case-insensitive key deletion; `del headers[k]` (line 124) removes every
binding whose key matches `k` case-insensitively.  The constructor call
`HeaderKeyDict(update['headers'])` copies the stored mapping, so the
deletion never touches the record's own `headers` field. -/
def headers_del (h : List (String × String)) (k : String) : List (String × String) :=
  h.filter (fun p => lower_key p.1 ≠ lower_key k)

/-- The container ring (external): `get_container_ring().get_nodes(account,
container)` returns a partition index and the ordered list of replica
nodes (lines 126-127). -/
abbrev ContainerRing := String → String → Nat × List Node

/-- One delivery attempt handed to `self.object_update(node, part, op, obj,
headers)` (lines 133-134). -/
structure Delivery where
  node : Node
  part : Nat
  op : String
  path : String
  headers : List (String × String)
  deriving DecidableEq, Repr

/-- A queue write issued by one call of `process_object_update`. -/
inductive QueueOp where
  | del (key : String)
  | put (key : String) (blob : Blob)
  deriving DecidableEq, Repr

/-- Result of one successful `process_object_update` call: the queue after
the call, the returned boolean, the delivery attempts made (in order), and
the queue writes issued (in order). -/
structure ProcOut where
  queue : Queue
  ret : Bool
  deliveries : List Delivery
  ops : List QueueOp
  deriving DecidableEq, Repr

/-- The delivery loop of `process_object_update` (lines 130-140):

    for node in nodes:
        if node['id'] not in successes:
            new_success, node_id = self.object_update(node, part, update['op'], obj, headers)
            if new_success:
                successes.append(node['id'])
                new_successes = True
            else:
                success = False

Returns the final `successes`, `success`, `new_successes`, and the list of
nodes the delivery client was invoked for, in order. -/
def update_nodes (object_update : Node → Bool) :
    List Node → List Nat → Bool → Bool → List Nat × Bool × Bool × List Node
  | [], successes, success, new_successes => (successes, success, new_successes, [])
  | node :: rest, successes, success, new_successes =>
    if node.id ∈ successes then
      update_nodes object_update rest successes success new_successes
    else
      let new_success := object_update node
      let successes' := if new_success then successes ++ [node.id] else successes
      let success' := if new_success then success else false
      let new_successes' := if new_success then true else new_successes
      let r := update_nodes object_update rest successes' success' new_successes'
      (r.1, r.2.1, r.2.2.1, node :: r.2.2.2)

/-- The canonical object path `'/%s/%s/%s' % (account, container, obj)`
(lines 128-129). -/
def obj_path (update : UpdateRecord) : String :=
  "/" ++ update.account ++ "/" ++ update.container ++ "/" ++ update.obj

/-- The delivery loop of one call, started from the record's `successes`
with `success = True` and `new_successes = False` (lines 125-140). -/
def proc_loop (ring : ContainerRing) (object_update : Node → Bool)
    (update : UpdateRecord) : List Nat × Bool × Bool × List Node :=
  update_nodes object_update (ring update.account update.container).2
    update.successes true false

/-- Body of `process_object_update` (lines 119-157) once the entry has been
loaded and decoded to `update`: strip `user-agent`, resolve the replica
nodes, run the delivery loop, then delete the entry (all acknowledged),
re-persist it with the extended `successes` (some new acknowledgment), or
leave the queue untouched. -/
def proc_good (ring : ContainerRing) (object_update : Node → Bool) (q : Queue)
    (update_entry : String) (update : UpdateRecord) : ProcOut :=
  let headers := headers_del update.headers "user-agent"
  let pn := ring update.account update.container
  let r := proc_loop ring object_update update
  let deliveries := r.2.2.2.map
    (fun node => Delivery.mk node pn.1 update.op (obj_path update) headers)
  if r.2.1 then
    ProcOut.mk (qdel q update_entry) true deliveries [QueueOp.del update_entry]
  else if r.2.2.1 then
    ProcOut.mk (qput q update_entry (Blob.good {update with successes := r.1}))
      false deliveries
      [QueueOp.put update_entry (Blob.good {update with successes := r.1})]
  else
    ProcOut.mk q false deliveries []

/-- `KineticUpdater.process_object_update(device, update_entry)` (lines
119-157).  `_load_update` (lines 100-106) reads the key and decodes it with
`msgpack.unpackb`; a missing key or a decode failure raises, which is the
`Except.error` result — the processor itself catches nothing. -/
def process_object_update (ring : ContainerRing) (object_update : Node → Bool)
    (q : Queue) (update_entry : String) : Except Err ProcOut :=
  match qget q update_entry with
  | none => Except.error Err.notFound
  | some Blob.corrupt => Except.error Err.decodeError
  | some (Blob.good update) =>
    Except.ok (proc_good ring object_update q update_entry update)

/-- The updater's `self.stats` dictionary (`defaultdict(int)`, line 64),
with one field per key the code touches: `found_updates`, `success`,
`failures` (per entry, `object_sweep`) and `device.success`,
`device.failures` (per device, `run_once`). -/
structure Stats where
  found_updates : Nat
  success : Nat
  failures : Nat
  device_success : Nat
  device_failures : Nat
  deriving DecidableEq, Repr

/-- `defaultdict(int)`: every counter starts at zero. -/
def initial_stats : Stats := Stats.mk 0 0 0 0 0

/-- The log calls made by the exception handlers of `run_once`:
`logger.warning` for `DiskFileDeviceUnavailable` (line 71) and
`logger.exception` (full detail) for any other exception (lines 72-74). -/
inductive LogEvent where
  | warning (device : String)
  | exception (device : String)
  deriving DecidableEq, Repr

/-- The per-device store environment: `mgr.get_connection(...)` plus the
device's key-value content.  An `Except.error` models the exception a
device raises when it is unreachable (or otherwise fails) before any entry
can be scanned. -/
abbrev Env := String → Except Err Queue

/-- Byte-wise lexicographic order on key characters, the order of the
kinetic store's key space. -/
def chars_lt : List Char → List Char → Bool
  | [], [] => false
  | [], _ :: _ => true
  | _ :: _, [] => false
  | a :: as, b :: bs =>
    if a.toNat < b.toNat then true
    else if b.toNat < a.toNat then false
    else chars_lt as bs

/-- `a < b` in the store's key order. -/
def key_lt (a b : String) : Bool := chars_lt a.data b.data

/-- `a ≤ b` in the store's key order. -/
def key_le (a b : String) : Bool := !(key_lt b a)

/-- `_find_updates_entries` (lines 84-89): the keys of the device's store
in the scan range.  Modelled from the spec: the QueueStore's
`rangeScan(startKeyInclusive, endKeyExclusive)` visits the keys `k` with
`"async_pending" ≤ k < "async_pending/"` in the store's byte-wise key
order. -/
def find_updates_entries (q : Queue) : List String :=
  (q.map Prod.fst).filter
    (fun k => key_le "async_pending" k && key_lt k "async_pending/")

/-- The loop body of `object_sweep` (lines 91-98) over a list of scanned
keys: increment `found_updates`, run `process_object_update`, then
increment `success` or `failures` by the returned boolean.  An exception
from processing stops the loop and carries the error out, leaving the
queue as it was at the raise. -/
def object_sweep_go (ring : ContainerRing) (object_update : Node → Bool) :
    List String → Queue → Stats → Queue × Stats × Option Err
  | [], q, st => (q, st, none)
  | k :: ks, q, st =>
    let st1 := {st with found_updates := st.found_updates + 1}
    match process_object_update ring object_update q k with
    | Except.error e => (q, st1, some e)
    | Except.ok out =>
      object_sweep_go ring object_update ks out.queue
        (if out.ret then {st1 with success := st1.success + 1}
         else {st1 with failures := st1.failures + 1})

/-- `object_sweep(device)` (lines 91-98): process every scanned key. -/
def object_sweep (ring : ContainerRing) (object_update : Node → Bool)
    (q : Queue) (st : Stats) : Queue × Stats × Option Err :=
  object_sweep_go ring object_update (find_updates_entries q) q st

/-- The body of the `try: self.object_sweep(device) ...` block of
`run_once` for one device: connecting to an unavailable device errors
before any entry is touched; otherwise the sweep runs and may itself end
in an error. -/
def device_sweep (ring : ContainerRing) (object_update : Node → Bool)
    (devq : Except Err Queue) (st : Stats) : Stats × Option Err :=
  match devq with
  | Except.error e => (st, some e)
  | Except.ok q =>
    ((object_sweep ring object_update q st).2.1,
     (object_sweep ring object_update q st).2.2)

/-- The device loop of `run_once` (lines 66-81): each device's sweep is
tried; `DiskFileDeviceUnavailable` is logged as a warning and any other
exception with `logger.exception`, both counted in `device.failures`; a
clean sweep counts in `device.success`; the loop always continues with the
remaining devices. -/
def run_once_go (ring : ContainerRing) (env : Env) (object_update : Node → Bool) :
    List String → Stats → List LogEvent → Stats × List LogEvent
  | [], st, logs => (st, logs)
  | d :: rest, st, logs =>
    match device_sweep ring object_update (env d) st with
    | (st1, none) =>
      run_once_go ring env object_update rest
        {st1 with device_success := st1.device_success + 1} logs
    | (st1, some Err.deviceUnavailable) =>
      run_once_go ring env object_update rest
        {st1 with device_failures := st1.device_failures + 1}
        (logs ++ [LogEvent.warning d])
    | (st1, some _) =>
      run_once_go ring env object_update rest
        {st1 with device_failures := st1.device_failures + 1}
        (logs ++ [LogEvent.exception d])

/-- `run_once` (lines 63-81): reset `self.stats` to a fresh
`defaultdict(int)` and sweep every device. -/
def run_once (ring : ContainerRing) (env : Env) (object_update : Node → Bool)
    (devices : List String) : Stats × List LogEvent :=
  run_once_go ring env object_update devices initial_stats []

/-- A sequence of `process_object_update` calls on one entry key, one call
per sweep, each with its own delivery outcomes; the queue threads through,
and a call that raises leaves the queue unchanged (the raise happens
before any write). -/
def sweep_calls (ring : ContainerRing) (update_entry : String) :
    List (Node → Bool) → Queue → Queue
  | [], q => q
  | o :: os, q =>
    match process_object_update ring o q update_entry with
    | Except.error _ => sweep_calls ring update_entry os q
    | Except.ok out => sweep_calls ring update_entry os out.queue

/-! ### Lemmas about the queue store -/

theorem qget_qdel_self (q : Queue) (k : String) : qget (qdel q k) k = none := by
  induction q with
  | nil => rfl
  | cons p q ih =>
    by_cases h : p.1 = k
    · simpa [qdel, h] using ih
    · simp [qdel, qget, h, ih]

theorem qget_qdel_ne (q : Queue) (k k' : String) (h : k' ≠ k) :
    qget (qdel q k) k' = qget q k' := by
  have hkk : ¬ k = k' := fun he => h he.symm
  induction q with
  | nil => rfl
  | cons p q ih =>
    by_cases hp : p.1 = k
    · simp [qdel, qget, hp, hkk, ih]
    · by_cases hp' : p.1 = k'
      · simp [qdel, qget, hp, hp', h, hkk]
      · simp [qdel, qget, hp, hp', ih]

theorem qget_append (q₁ q₂ : Queue) (k : String) :
    qget (q₁ ++ q₂) k = ((qget q₁ k).rec (qget q₂ k) (fun b => some b)) := by
  induction q₁ with
  | nil => rfl
  | cons p q ih =>
    by_cases h : p.1 = k
    · simp [qget, h]
    · simp [qget, h, ih]

theorem qget_qput_self (q : Queue) (k : String) (b : Blob) :
    qget (qput q k b) k = some b := by
  rw [qput, qget_append, qget_qdel_self]
  simp [qget]

theorem qget_qput_ne (q : Queue) (k k' : String) (b : Blob) (h : k' ≠ k) :
    qget (qput q k b) k' = qget q k' := by
  rw [qput, qget_append, qget_qdel_ne q k k' h]
  cases hg : qget q k' with
  | none =>
    have hkk : ¬ k = k' := fun he => h he.symm
    simp [qget, hkk]
  | some b' => simp

/-! ### Lemmas about the delivery loop -/

theorem un_step_mem (o : Node → Bool) (n : Node) (rest : List Node)
    (s : List Nat) (ok nw : Bool) (h : n.id ∈ s) :
    update_nodes o (n :: rest) s ok nw = update_nodes o rest s ok nw := by
  simp [update_nodes, h]

theorem un_step_ack (o : Node → Bool) (n : Node) (rest : List Node)
    (s : List Nat) (ok nw : Bool) (h : n.id ∉ s) (ho : o n = true) :
    update_nodes o (n :: rest) s ok nw =
      ((update_nodes o rest (s ++ [n.id]) ok true).1,
       (update_nodes o rest (s ++ [n.id]) ok true).2.1,
       (update_nodes o rest (s ++ [n.id]) ok true).2.2.1,
       n :: (update_nodes o rest (s ++ [n.id]) ok true).2.2.2) := by
  simp [update_nodes, h, ho]

theorem un_step_fail (o : Node → Bool) (n : Node) (rest : List Node)
    (s : List Nat) (ok nw : Bool) (h : n.id ∉ s) (ho : o n = false) :
    update_nodes o (n :: rest) s ok nw =
      ((update_nodes o rest s false nw).1,
       (update_nodes o rest s false nw).2.1,
       (update_nodes o rest s false nw).2.2.1,
       n :: (update_nodes o rest s false nw).2.2.2) := by
  simp [update_nodes, h, ho]

theorem un_successes_sub (o : Node → Bool) (ns : List Node) :
    ∀ s ok nw, s ⊆ (update_nodes o ns s ok nw).1 := by
  induction ns with
  | nil => intro s ok nw; simp [update_nodes]
  | cons n rest ih =>
    intro s ok nw
    by_cases h : n.id ∈ s
    · simpa [update_nodes, h] using ih s ok nw
    · cases ho : o n
      · simpa [update_nodes, h, ho] using ih s false nw
      · have h1 : s ⊆ s ++ [n.id] := List.subset_append_left s [n.id]
        simpa [update_nodes, h, ho] using h1.trans (ih (s ++ [n.id]) ok true)

theorem un_successes_mem (o : Node → Bool) (ns : List Node) :
    ∀ s ok nw x, x ∈ (update_nodes o ns s ok nw).1 →
      x ∈ s ∨ x ∈ ns.map Node.id := by
  induction ns with
  | nil => intro s ok nw x hx; exact Or.inl (by simpa [update_nodes] using hx)
  | cons n rest ih =>
    intro s ok nw x hx
    by_cases h : n.id ∈ s
    · rcases ih s ok nw x (by simpa [update_nodes, h] using hx) with h1 | h2
      · exact Or.inl h1
      · exact Or.inr (by simp [h2])
    · cases ho : o n
      · rcases ih s false nw x (by simpa [update_nodes, h, ho] using hx) with h1 | h2
        · exact Or.inl h1
        · exact Or.inr (by simp [h2])
      · rcases ih (s ++ [n.id]) ok true x
          (by simpa [update_nodes, h, ho] using hx) with h1 | h2
        · rcases List.mem_append.mp h1 with h1' | h1'
          · exact Or.inl h1'
          · exact Or.inr (by simp at h1'; simp [h1'])
        · exact Or.inr (by simp [h2])

theorem un_ok_false (o : Node → Bool) (ns : List Node) :
    ∀ s nw, (update_nodes o ns s false nw).2.1 = false := by
  induction ns with
  | nil => intro s nw; simp [update_nodes]
  | cons n rest ih =>
    intro s nw
    by_cases h : n.id ∈ s
    · simpa [update_nodes, h] using ih s nw
    · cases ho : o n
      · simpa [update_nodes, h, ho] using ih s nw
      · simpa [update_nodes, h, ho] using ih (s ++ [n.id]) true

theorem un_nw_true (o : Node → Bool) (ns : List Node) :
    ∀ s ok, (update_nodes o ns s ok true).2.2.1 = true := by
  induction ns with
  | nil => intro s ok; simp [update_nodes]
  | cons n rest ih =>
    intro s ok
    by_cases h : n.id ∈ s
    · simpa [update_nodes, h] using ih s ok
    · cases ho : o n
      · simpa [update_nodes, h, ho] using ih s false
      · simpa [update_nodes, h, ho] using ih (s ++ [n.id]) ok

theorem un_nw_of_ack (o : Node → Bool) (ns : List Node) :
    ∀ s ok nw n, n ∈ ns → n.id ∉ s → o n = true →
      (update_nodes o ns s ok nw).2.2.1 = true := by
  induction ns with
  | nil => intro s ok nw n hn; cases hn
  | cons m rest ih =>
    intro s ok nw n hn hns ho
    by_cases h : m.id ∈ s
    · rcases List.mem_cons.mp hn with rfl | hn'
      · exact absurd h hns
      · simpa [update_nodes, h] using ih s ok nw n hn' hns ho
    · cases hom : o m
      · rcases List.mem_cons.mp hn with rfl | hn'
        · rw [ho] at hom; cases hom
        · simpa [update_nodes, h, hom] using ih s false nw n hn' hns ho
      · simpa [update_nodes, h, hom] using un_nw_true o rest (s ++ [m.id]) ok

theorem un_acked_mem (o : Node → Bool) (ns : List Node) :
    ∀ s ok nw n, n ∈ ns → n.id ∉ s → o n = true →
      n.id ∈ (update_nodes o ns s ok nw).1 := by
  induction ns with
  | nil => intro s ok nw n hn; cases hn
  | cons m rest ih =>
    intro s ok nw n hn hns ho
    by_cases h : m.id ∈ s
    · rcases List.mem_cons.mp hn with rfl | hn'
      · exact absurd h hns
      · simpa [update_nodes, h] using ih s ok nw n hn' hns ho
    · cases hom : o m
      · rcases List.mem_cons.mp hn with rfl | hn'
        · rw [ho] at hom; cases hom
        · simpa [update_nodes, h, hom] using ih s false nw n hn' hns ho
      · rcases List.mem_cons.mp hn with rfl | hn'
        · have hmem : n.id ∈ s ++ [n.id] := by simp
          simpa [update_nodes, h, hom] using
            un_successes_sub o rest (s ++ [n.id]) ok true hmem
        · by_cases hid : n.id = m.id
          · have hmem : n.id ∈ s ++ [m.id] := by simp [hid]
            simpa [update_nodes, h, hom] using
              un_successes_sub o rest (s ++ [m.id]) ok true hmem
          · have hns' : n.id ∉ s ++ [m.id] := by simp [hns, hid]
            simpa [update_nodes, h, hom] using
              ih (s ++ [m.id]) ok true n hn' hns' ho

theorem un_ok_iff (o : Node → Bool) (ns : List Node) :
    ∀ s ok nw, (ns.map Node.id).Nodup →
      ((update_nodes o ns s ok nw).2.1 = true ↔
        (ok = true ∧ ∀ n ∈ ns, n.id ∈ (update_nodes o ns s ok nw).1)) := by
  induction ns with
  | nil => intro s ok nw _; simp [update_nodes]
  | cons n rest ih =>
    intro s ok nw hnd
    rw [List.map_cons, List.nodup_cons] at hnd
    obtain ⟨hn, hnd'⟩ := hnd
    by_cases h : n.id ∈ s
    · have hmem : n.id ∈ (update_nodes o rest s ok nw).1 :=
        un_successes_sub o rest s ok nw h
      simp only [update_nodes, if_pos h, List.mem_cons, forall_eq_or_imp]
      rw [ih s ok nw hnd']
      tauto
    · cases ho : o n
      · have hfalse : (update_nodes o rest s false nw).2.1 = false :=
          un_ok_false o rest s nw
        have hnotm : n.id ∉ (update_nodes o rest s false nw).1 := by
          intro hm
          rcases un_successes_mem o rest s false nw n.id hm with h1 | h2
          · exact h h1
          · exact hn h2
        simp only [update_nodes, if_neg h, ho, List.mem_cons, forall_eq_or_imp]
        simp [hfalse, hnotm]
      · have hmem : n.id ∈ (update_nodes o rest (s ++ [n.id]) ok true).1 :=
          un_successes_sub o rest (s ++ [n.id]) ok true (by simp)
        rw [un_step_ack o n rest s ok nw h ho]
        dsimp only
        simp only [List.mem_cons, forall_eq_or_imp]
        rw [ih (s ++ [n.id]) ok true hnd']
        tauto

theorem un_trace (o : Node → Bool) (ns : List Node) :
    ∀ s ok nw, (ns.map Node.id).Nodup →
      (update_nodes o ns s ok nw).2.2.2
        = ns.filter (fun n => decide (n.id ∉ s)) := by
  induction ns with
  | nil => intro s ok nw _; simp [update_nodes]
  | cons n rest ih =>
    intro s ok nw hnd
    rw [List.map_cons, List.nodup_cons] at hnd
    obtain ⟨hn, hnd'⟩ := hnd
    by_cases h : n.id ∈ s
    · simp [update_nodes, h, ih s ok nw hnd']
    · cases ho : o n
      · rw [un_step_fail o n rest s ok nw h ho]
        dsimp only
        rw [ih s false nw hnd',
          List.filter_cons_of_pos (by simpa using h)]
      · rw [un_step_ack o n rest s ok nw h ho]
        dsimp only
        rw [ih (s ++ [n.id]) ok true hnd']
        have hfil : rest.filter (fun m => decide (m.id ∉ s ++ [n.id]))
            = rest.filter (fun m => decide (m.id ∉ s)) := by
          apply List.filter_congr
          intro m hm
          have hne : m.id ≠ n.id := by
            intro he
            exact hn (by rw [← he]; exact List.mem_map_of_mem Node.id hm)
          simp [List.mem_append, hne]
        rw [hfil, List.filter_cons_of_pos (by simpa using h)]

/-- If `p` implies `pq` on the members of `l`, and some member satisfies
`pq` but not `p`, the `p`-filter is strictly shorter than the
`pq`-filter. -/
theorem filter_length_lt {α : Type} (l : List α) (p pq : α → Bool)
    (himp : ∀ x ∈ l, p x = true → pq x = true) :
    ∀ x ∈ l, pq x = true → p x ≠ true →
      (l.filter p).length < (l.filter pq).length := by
  induction l with
  | nil => intro x hx; cases hx
  | cons a l ih =>
    intro x hx hqx hpx
    have himp' : ∀ y ∈ l, p y = true → pq y = true :=
      fun y hy => himp y (List.mem_cons_of_mem a hy)
    have hle : (l.filter p).length ≤ (l.filter pq).length := by
      have := List.countP_mono_left himp'
      simpa [List.countP_eq_length_filter] using this
    rcases List.mem_cons.mp hx with rfl | hx'
    · have hpa : p x = false := by
        cases h2 : p x
        · rfl
        · exact absurd h2 hpx
      rw [List.filter_cons, List.filter_cons]
      simp only [hpa, hqx, Bool.false_eq_true, if_false, if_true, List.length_cons]
      exact Nat.lt_succ_of_le hle
    · have hlt := ih himp' x hx' hqx hpx
      rw [List.filter_cons, List.filter_cons]
      by_cases hpa : p a = true
      · have hqa := himp a (List.mem_cons_self a l) hpa
        simp only [hpa, hqa, if_true, List.length_cons]
        omega
      · have hpa' : p a = false := by
          cases h2 : p a
          · rfl
          · exact absurd h2 hpa
        by_cases hqa : pq a = true
        · simp only [hpa', hqa, Bool.false_eq_true, if_false, if_true,
            List.length_cons]
          omega
        · have hqa' : pq a = false := by
            cases h2 : pq a
            · rfl
            · exact absurd h2 hqa
          simp only [hpa', hqa', Bool.false_eq_true, if_false]
          exact hlt

/-! ### Lemmas about one processing call -/

/-- The delivery attempts of one call on a decoded record: one per node the
loop contacted, each with the partition, operation, object path and the
`user-agent`-stripped headers. -/
def proc_deliveries (ring : ContainerRing) (o : Node → Bool)
    (u : UpdateRecord) : List Delivery :=
  (proc_loop ring o u).2.2.2.map
    (fun node => Delivery.mk node (ring u.account u.container).1 u.op (obj_path u)
      (headers_del u.headers "user-agent"))

theorem proc_good_eq (ring : ContainerRing) (o : Node → Bool) (q : Queue)
    (k : String) (u : UpdateRecord) :
    proc_good ring o q k u =
      (if (proc_loop ring o u).2.1 = true then
        ProcOut.mk (qdel q k) true (proc_deliveries ring o u) [QueueOp.del k]
      else if (proc_loop ring o u).2.2.1 = true then
        ProcOut.mk
          (qput q k (Blob.good {u with successes := (proc_loop ring o u).1}))
          false (proc_deliveries ring o u)
          [QueueOp.put k (Blob.good {u with successes := (proc_loop ring o u).1})]
      else ProcOut.mk q false (proc_deliveries ring o u) []) := rfl

theorem proc_good_ret (ring : ContainerRing) (o : Node → Bool) (q : Queue)
    (k : String) (u : UpdateRecord) :
    (proc_good ring o q k u).ret = (proc_loop ring o u).2.1 := by
  rw [proc_good_eq]
  cases h : (proc_loop ring o u).2.1
  · split
    · next hcond => simp at hcond
    · split <;> rfl
  · simp

theorem proc_good_deliveries (ring : ContainerRing) (o : Node → Bool) (q : Queue)
    (k : String) (u : UpdateRecord) :
    (proc_good ring o q k u).deliveries = proc_deliveries ring o u := by
  rw [proc_good_eq]
  split <;> try rfl
  split <;> rfl

theorem proc_good_qget_ne (ring : ContainerRing) (o : Node → Bool) (q : Queue)
    (k' : String) (u : UpdateRecord) (k : String) (hk : k ≠ k') :
    qget (proc_good ring o q k' u).queue k = qget q k := by
  rw [proc_good_eq]
  split
  · exact qget_qdel_ne q k' k hk
  · split
    · exact qget_qput_ne q k' k _ hk
    · rfl

theorem proc_good_qget_self (ring : ContainerRing) (o : Node → Bool) (q : Queue)
    (k : String) (u : UpdateRecord) (hq : qget q k = some (Blob.good u)) :
    qget (proc_good ring o q k u).queue k = none ∨
      ∃ s', qget (proc_good ring o q k u).queue k
              = some (Blob.good {u with successes := s'}) ∧
            u.successes ⊆ s' := by
  rw [proc_good_eq]
  split
  · exact Or.inl (qget_qdel_self q k)
  · split
    · refine Or.inr ⟨(proc_loop ring o u).1, qget_qput_self q k _, ?_⟩
      exact un_successes_sub o _ u.successes true false
    · exact Or.inr ⟨u.successes, by simpa using hq, fun x hx => hx⟩

theorem process_of_none (ring : ContainerRing) (o : Node → Bool) (q : Queue)
    (k : String) (hq : qget q k = none) :
    process_object_update ring o q k = Except.error Err.notFound := by
  unfold process_object_update
  rw [hq]

theorem process_of_corrupt (ring : ContainerRing) (o : Node → Bool) (q : Queue)
    (k : String) (hq : qget q k = some Blob.corrupt) :
    process_object_update ring o q k = Except.error Err.decodeError := by
  unfold process_object_update
  rw [hq]

theorem process_of_good (ring : ContainerRing) (o : Node → Bool) (q : Queue)
    (k : String) (u : UpdateRecord) (hq : qget q k = some (Blob.good u)) :
    process_object_update ring o q k = Except.ok (proc_good ring o q k u) := by
  unfold process_object_update
  rw [hq]

/-! ### Lemmas about sweeps -/

theorem sweep_calls_cons_good (ring : ContainerRing) (k : String)
    (o : Node → Bool) (os : List (Node → Bool)) (q : Queue) (u : UpdateRecord)
    (hq : qget q k = some (Blob.good u)) :
    sweep_calls ring k (o :: os) q
      = sweep_calls ring k os (proc_good ring o q k u).queue := by
  have h := process_of_good ring o q k u hq
  simp [sweep_calls, h]

theorem sweep_calls_cons_err (ring : ContainerRing) (k : String)
    (o : Node → Bool) (os : List (Node → Bool)) (q : Queue) (e : Err)
    (he : process_object_update ring o q k = Except.error e) :
    sweep_calls ring k (o :: os) q = sweep_calls ring k os q := by
  simp [sweep_calls, he]

theorem sweep_calls_none (ring : ContainerRing) (k : String)
    (os : List (Node → Bool)) :
    ∀ q, qget q k = none → qget (sweep_calls ring k os q) k = none := by
  induction os with
  | nil => intro q hq; simpa [sweep_calls] using hq
  | cons o os ih =>
    intro q hq
    rw [sweep_calls_cons_err ring k o os q Err.notFound
      (process_of_none ring o q k hq)]
    exact ih q hq

theorem osg_device_counters (ring : ContainerRing) (o : Node → Bool)
    (ks : List String) :
    ∀ q st,
      ((object_sweep_go ring o ks q st).2.1).device_success = st.device_success ∧
      ((object_sweep_go ring o ks q st).2.1).device_failures = st.device_failures := by
  induction ks with
  | nil => intro q st; exact ⟨rfl, rfl⟩
  | cons k ks ih =>
    intro q st
    simp only [object_sweep_go]
    cases hp : process_object_update ring o q k with
    | error e => exact ⟨rfl, rfl⟩
    | ok out =>
      dsimp only
      split <;> exact ih out.queue _

theorem osg_corrupt_pres (ring : ContainerRing) (o : Node → Bool) (k : String)
    (ks : List String) :
    ∀ q st, qget q k = some Blob.corrupt →
      qget (object_sweep_go ring o ks q st).1 k = some Blob.corrupt ∧
      (k ∈ ks → ((object_sweep_go ring o ks q st).2.2).isSome = true) := by
  induction ks with
  | nil =>
    intro q st hq
    exact ⟨hq, by intro hk; cases hk⟩
  | cons k' ks ih =>
    intro q st hq
    by_cases hk : k' = k
    · subst hk
      have hp := process_of_corrupt ring o q k' hq
      simp only [object_sweep_go, hp]
      exact ⟨hq, fun _ => rfl⟩
    · cases hget : qget q k' with
      | none =>
        have hp := process_of_none ring o q k' hget
        simp only [object_sweep_go, hp]
        exact ⟨hq, fun _ => rfl⟩
      | some b =>
        cases b with
        | corrupt =>
          have hp := process_of_corrupt ring o q k' hget
          simp only [object_sweep_go, hp]
          exact ⟨hq, fun _ => rfl⟩
        | good u =>
          have hp := process_of_good ring o q k' u hget
          simp only [object_sweep_go, hp]
          have hpres : qget (proc_good ring o q k' u).queue k
              = some Blob.corrupt := by
            rw [proc_good_qget_ne ring o q k' u k
              (fun he => hk he.symm)]
            exact hq
          constructor
          · split <;> exact (ih _ _ hpres).1
          · intro hmem
            rcases List.mem_cons.mp hmem with rfl | hmem'
            · exact absurd rfl hk
            · split <;> exact (ih _ _ hpres).2 hmem'

/-- All replicas are acknowledged after the loop iff the `success` flag
survives, for the loop as started by one processing call. -/
theorem proc_loop_ok_iff (ring : ContainerRing) (o : Node → Bool)
    (u : UpdateRecord)
    (hnd : (((ring u.account u.container).2).map Node.id).Nodup) :
    (proc_loop ring o u).2.1 = true ↔
      ∀ n ∈ (ring u.account u.container).2, n.id ∈ (proc_loop ring o u).1 := by
  have h := un_ok_iff o (ring u.account u.container).2 u.successes true false hnd
  simpa [proc_loop] using h

/-- Iterated sweeps delete an entry once the number of sweeps covers the
number of unacknowledged replicas, provided each sweep acknowledges at
least one replica that was still unacknowledged when the sweep loaded the
entry. -/
theorem sweep_progress (ring : ContainerRing) (k : String) :
    ∀ (os : List (Node → Bool)) (q : Queue) (u : UpdateRecord),
      qget q k = some (Blob.good u) →
      (((ring u.account u.container).2).map Node.id).Nodup →
      (((ring u.account u.container).2).filter
          (fun n => decide (n.id ∉ u.successes))).length ≤ os.length →
      1 ≤ (((ring u.account u.container).2).filter
          (fun n => decide (n.id ∉ u.successes))).length →
      (∀ i (hi : i < os.length) u',
        qget (sweep_calls ring k (os.take i) q) k = some (Blob.good u') →
        ∃ n ∈ (ring u.account u.container).2, n.id ∉ u'.successes ∧
          (os.get ⟨i, hi⟩) n = true) →
      qget (sweep_calls ring k os q) k = none := by
  intro os
  induction os with
  | nil =>
    intro q u hq hnd hbud hpos hack
    simp only [List.length_nil] at hbud
    omega
  | cons o os ih =>
    intro q u hq hnd hbud hpos hack
    obtain ⟨n, hnN, hnotin, hon⟩ :=
      hack 0 (Nat.succ_pos _) u (by simpa [sweep_calls] using hq)
    rw [sweep_calls_cons_good ring k o os q u hq]
    cases hr : (proc_loop ring o u).2.1 with
    | true =>
      have hqueue : (proc_good ring o q k u).queue = qdel q k := by
        rw [proc_good_eq, if_pos hr]
      apply sweep_calls_none
      rw [hqueue]
      exact qget_qdel_self q k
    | false =>
      have hnw : (proc_loop ring o u).2.2.1 = true :=
        un_nw_of_ack o _ u.successes true false n hnN hnotin hon
      have hrne : ¬ (proc_loop ring o u).2.1 = true := by simp [hr]
      have hqueue : (proc_good ring o q k u).queue
          = qput q k (Blob.good {u with successes := (proc_loop ring o u).1}) := by
        rw [proc_good_eq, if_neg hrne, if_pos hnw]
      have hq2 : qget (proc_good ring o q k u).queue k
          = some (Blob.good {u with successes := (proc_loop ring o u).1}) := by
        rw [hqueue]
        exact qget_qput_self q k _
      have hsub : u.successes ⊆ (proc_loop ring o u).1 :=
        un_successes_sub o _ u.successes true false
      have hmemn : n.id ∈ (proc_loop ring o u).1 :=
        un_acked_mem o _ u.successes true false n hnN hnotin hon
      have hlt : (((ring u.account u.container).2).filter
            (fun m => decide (m.id ∉ (proc_loop ring o u).1))).length
          < (((ring u.account u.container).2).filter
            (fun m => decide (m.id ∉ u.successes))).length := by
        apply filter_length_lt _ _ _ ?_ n hnN ?_ ?_
        · intro x hx hpx
          simp only [decide_eq_true_eq] at hpx ⊢
          exact fun hmem => hpx (hsub hmem)
        · simpa using hnotin
        · simp [hmemn]
      have hex : ∃ m ∈ (ring u.account u.container).2,
          m.id ∉ (proc_loop ring o u).1 := by
        by_contra hcov
        push_neg at hcov
        have hok : (proc_loop ring o u).2.1 = true :=
          (proc_loop_ok_iff ring o u hnd).mpr hcov
        rw [hr] at hok
        cases hok
      have hpos2 : 1 ≤ (((ring u.account u.container).2).filter
          (fun m => decide (m.id ∉ (proc_loop ring o u).1))).length := by
        obtain ⟨m, hmN, hm⟩ := hex
        exact List.length_pos_of_mem
          (List.mem_filter.mpr ⟨hmN, by simpa using hm⟩)
      have hbud2 : (((ring u.account u.container).2).filter
          (fun m => decide (m.id ∉ (proc_loop ring o u).1))).length
          ≤ os.length := by
        have hlen : (o :: os).length = os.length + 1 := rfl
        omega
      refine ih (proc_good ring o q k u).queue
        {u with successes := (proc_loop ring o u).1} hq2 hnd hbud2 hpos2 ?_
      intro i hi u' hu'
      have htail := hack (i + 1) (Nat.succ_lt_succ hi) u' ?_
      · exact htail
      · have htake : (o :: os).take (i + 1) = o :: os.take i := rfl
        rw [htake, sweep_calls_cons_good ring k o (os.take i) q u hq]
        exact hu'

/-- When the loop flag ends false, the entry stays in the queue: either
re-persisted with the extended `successes`, or untouched. -/
theorem proc_good_present (ring : ContainerRing) (o : Node → Bool) (q : Queue)
    (k : String) (u : UpdateRecord) (hq : qget q k = some (Blob.good u))
    (hr : (proc_loop ring o u).2.1 = false) :
    ∃ s', qget (proc_good ring o q k u).queue k
        = some (Blob.good {u with successes := s'}) ∧ u.successes ⊆ s' := by
  have hrne : ¬ (proc_loop ring o u).2.1 = true := by simp [hr]
  rw [proc_good_eq, if_neg hrne]
  split
  · exact ⟨(proc_loop ring o u).1, qget_qput_self q k _,
      un_successes_sub o _ u.successes true false⟩
  · exact ⟨u.successes, by simpa using hq, fun x hx => hx⟩

/-! ### Concrete instances used by the closed example theorems -/

def ex_nodes : List Node := [Node.mk 1 "n1", Node.mk 2 "n2", Node.mk 3 "n3"]

/-- A ring resolving every collection to three replicas. -/
def ex_ring : ContainerRing := fun _ _ => (7, ex_nodes)

def ex_key : String := "async_pending.a-1"

def ex_update : UpdateRecord :=
  UpdateRecord.mk "AUTH_test" "c" "o" "PUT"
    [("User-Agent", "swift-client"), ("x-timestamp", "123")] []

def ex_queue : Queue := [(ex_key, Blob.good ex_update)]

/-- A delivery client that acknowledges every node. -/
def ex_ack_all : Node → Bool := fun _ => true

/-- A delivery client that fails node 2 and acknowledges the rest. -/
def ex_ack_not2 : Node → Bool := fun n => decide (n.id ≠ 2)

/-- An entry whose `successes` already covers every replica. -/
def ex_update_full : UpdateRecord :=
  UpdateRecord.mk "AUTH_test" "c" "o" "PUT"
    [("x-timestamp", "123")] [1, 2, 3]

def ex_queue_full : Queue := [(ex_key, Blob.good ex_update_full)]

/-- A queue holding an undecodable entry. -/
def ex_queue_corrupt : Queue := [(ex_key, Blob.corrupt)]

/-! ### The claims -/

/-- C1: an entry processed by `process_object_update` is deleted from the
queue with the call returning true exactly when, after the call's delivery
attempts, every resolved replica id is in the entry's `successes`;
otherwise the entry stays in the queue and the call returns false. -/
theorem C1_delete_iff_all_acked (ring : ContainerRing) (o : Node → Bool)
    (q : Queue) (k : String) (u : UpdateRecord) (out : ProcOut)
    (hq : qget q k = some (Blob.good u))
    (hnd : (((ring u.account u.container).2).map Node.id).Nodup)
    (hp : process_object_update ring o q k = Except.ok out) :
    ((out.ret = true ∧ qget out.queue k = none) ↔
      (∀ n ∈ (ring u.account u.container).2, n.id ∈ (proc_loop ring o u).1)) ∧
    (¬ (∀ n ∈ (ring u.account u.container).2, n.id ∈ (proc_loop ring o u).1) →
      out.ret = false ∧ (qget out.queue k).isSome = true) := by
  have hout : out = proc_good ring o q k u :=
    Except.ok.inj (hp.symm.trans (process_of_good ring o q k u hq))
  subst hout
  cases hr : (proc_loop ring o u).2.1 with
  | true =>
    have hcov := (proc_loop_ok_iff ring o u hnd).mp hr
    refine ⟨⟨fun _ => hcov, fun _ => ⟨?_, ?_⟩⟩, fun hncov => absurd hcov hncov⟩
    · rw [proc_good_ret, hr]
    · rw [proc_good_eq, if_pos hr]
      exact qget_qdel_self q k
  | false =>
    have hncov : ¬ (∀ n ∈ (ring u.account u.container).2,
        n.id ∈ (proc_loop ring o u).1) := by
      intro hcov
      rw [(proc_loop_ok_iff ring o u hnd).mpr hcov] at hr
      cases hr
    have hret : (proc_good ring o q k u).ret = false := by
      rw [proc_good_ret, hr]
    obtain ⟨s', hs', _⟩ := proc_good_present ring o q k u hq hr
    refine ⟨⟨fun hl => absurd (hret ▸ hl.1) (by simp), fun hcov => absurd hcov hncov⟩,
      fun _ => ⟨hret, by rw [hs']; rfl⟩⟩

theorem C1_witness :
    (proc_good ex_ring ex_ack_all ex_queue ex_key ex_update).ret = true ∧
    qget (proc_good ex_ring ex_ack_all ex_queue ex_key ex_update).queue ex_key
      = none :=
  (C1_delete_iff_all_acked ex_ring ex_ack_all ex_queue ex_key ex_update
    (proc_good ex_ring ex_ack_all ex_queue ex_key ex_update)
    (by decide) (by decide)
    (process_of_good ex_ring ex_ack_all ex_queue ex_key ex_update
      (by decide))).1.mpr (by decide)

/-- C2: one call invokes the delivery client exactly once for each resolved
node whose id is not in the entry's `successes` at load time — in ring
order, with the partition, operation, object path and stripped headers —
and never for an already-acknowledged node; failures do not cut the list
short. -/
theorem C2_one_attempt_per_unacked_node (ring : ContainerRing)
    (o : Node → Bool) (q : Queue) (k : String) (u : UpdateRecord)
    (out : ProcOut)
    (hq : qget q k = some (Blob.good u))
    (hnd : (((ring u.account u.container).2).map Node.id).Nodup)
    (hp : process_object_update ring o q k = Except.ok out) :
    out.deliveries
      = (((ring u.account u.container).2).filter
          (fun n => decide (n.id ∉ u.successes))).map
        (fun n => Delivery.mk n (ring u.account u.container).1 u.op (obj_path u)
          (headers_del u.headers "user-agent")) := by
  have hout : out = proc_good ring o q k u :=
    Except.ok.inj (hp.symm.trans (process_of_good ring o q k u hq))
  subst hout
  rw [proc_good_deliveries]
  unfold proc_deliveries
  have htr : (proc_loop ring o u).2.2.2
      = ((ring u.account u.container).2).filter
        (fun n => decide (n.id ∉ u.successes)) := by
    simpa [proc_loop] using
      un_trace o (ring u.account u.container).2 u.successes true false hnd
  rw [htr]

theorem C2_witness :
    (proc_good ex_ring ex_ack_not2 ex_queue ex_key ex_update).deliveries
      = (((ex_ring ex_update.account ex_update.container).2).filter
          (fun n => decide (n.id ∉ ex_update.successes))).map
        (fun n => Delivery.mk n (ex_ring ex_update.account ex_update.container).1
          ex_update.op (obj_path ex_update)
          (headers_del ex_update.headers "user-agent")) :=
  C2_one_attempt_per_unacked_node ex_ring ex_ack_not2 ex_queue ex_key ex_update
    (proc_good ex_ring ex_ack_not2 ex_queue ex_key ex_update)
    (by decide) (by decide)
    (process_of_good ex_ring ex_ack_not2 ex_queue ex_key ex_update (by decide))

/-- C3: the `successes` set of an entry never loses a node id — within one
call's delivery loop in memory, and across any sequence of
`process_object_update` calls on the same key for any delivery outcomes,
the stored entry's `successes` only grows under set inclusion. -/
theorem C3_successes_monotone :
    (∀ (o : Node → Bool) (ns : List Node) (s : List Nat) (ok nw : Bool),
      s ⊆ (update_nodes o ns s ok nw).1) ∧
    (∀ (ring : ContainerRing) (k : String) (os : List (Node → Bool))
        (q : Queue) (u u' : UpdateRecord),
      qget q k = some (Blob.good u) →
      qget (sweep_calls ring k os q) k = some (Blob.good u') →
      u.successes ⊆ u'.successes) := by
  constructor
  · exact fun o ns s ok nw => un_successes_sub o ns s ok nw
  · intro ring k os
    induction os with
    | nil =>
      intro q u u' hq hu'
      simp only [sweep_calls] at hu'
      have := Option.some.inj (hq.symm.trans hu')
      rw [Blob.good.inj this]
      exact fun x hx => hx
    | cons o os ih =>
      intro q u u' hq hu'
      rw [sweep_calls_cons_good ring k o os q u hq] at hu'
      rcases proc_good_qget_self ring o q k u hq with hnone | ⟨s', hsome, hsub⟩
      · rw [sweep_calls_none ring k os _ hnone] at hu'
        cases hu'
      · have hstep := ih (proc_good ring o q k u).queue
          {u with successes := s'} u' hsome hu'
        exact fun x hx => hstep (hsub hx)

theorem C3_witness :
    ex_update.successes ⊆
      (update_nodes ex_ack_not2 ex_nodes ex_update.successes true false).1 ∧
    ([] : List Nat) ⊆ [1, 3] :=
  ⟨C3_successes_monotone.1 ex_ack_not2 ex_nodes ex_update.successes true false,
   C3_successes_monotone.2 ex_ring ex_key [ex_ack_not2]
     ex_queue (UpdateRecord.mk "AUTH_test" "c" "o" "PUT"
       [("User-Agent", "swift-client"), ("x-timestamp", "123")] [])
     (UpdateRecord.mk "AUTH_test" "c" "o" "PUT"
       [("User-Agent", "swift-client"), ("x-timestamp", "123")] [1, 3])
     (by decide) (by decide)⟩

/-- C4 (amended): one call issues at most one queue write; when not all
replicas are acknowledged and a new acknowledgment occurred, the one write
re-persists the entry under the same key with the extended `successes`;
when not all are acknowledged and nothing new was acknowledged, no write
happens and the queue is untouched; when all are acknowledged the one
write is the delete. -/
theorem C4_at_most_one_write (ring : ContainerRing) (o : Node → Bool)
    (q : Queue) (k : String) (u : UpdateRecord) (out : ProcOut)
    (hq : qget q k = some (Blob.good u))
    (hp : process_object_update ring o q k = Except.ok out) :
    out.ops.length ≤ 1 ∧
    ((proc_loop ring o u).2.1 = true → out.ops = [QueueOp.del k]) ∧
    ((proc_loop ring o u).2.1 = false → (proc_loop ring o u).2.2.1 = true →
      out.ops = [QueueOp.put k
          (Blob.good {u with successes := (proc_loop ring o u).1})] ∧
      out.queue = qput q k
          (Blob.good {u with successes := (proc_loop ring o u).1})) ∧
    ((proc_loop ring o u).2.1 = false → (proc_loop ring o u).2.2.1 = false →
      out.ops = [] ∧ out.queue = q) := by
  have hout : out = proc_good ring o q k u :=
    Except.ok.inj (hp.symm.trans (process_of_good ring o q k u hq))
  subst hout
  rw [proc_good_eq]
  cases hr : (proc_loop ring o u).2.1 with
  | true => simp
  | false =>
    cases hnw : (proc_loop ring o u).2.2.1 with
    | true => simp
    | false => simp

theorem C4_witness :
    (proc_good ex_ring ex_ack_not2 ex_queue ex_key ex_update).ops.length ≤ 1 :=
  (C4_at_most_one_write ex_ring ex_ack_not2 ex_queue ex_key ex_update
    (proc_good ex_ring ex_ack_not2 ex_queue ex_key ex_update)
    (by decide)
    (process_of_good ex_ring ex_ack_not2 ex_queue ex_key ex_update
      (by decide))).1

/-- C4, counterexample to the claim as stated: for an entry whose stored
`successes` already covers every resolved replica, the call invokes the
delivery client for no node — so no new acknowledgment occurs — and still
issues a queue write, the delete of the entry; the claim's "if no new
acknowledgment occurred, no put or delete is issued and the stored entry
is left untouched" fails at this input. -/
theorem C4_counterexample :
    process_object_update ex_ring ex_ack_all ex_queue_full ex_key
      = Except.ok (ProcOut.mk [] true [] [QueueOp.del ex_key]) ∧
    [QueueOp.del ex_key] ≠ ([] : List QueueOp) := by
  constructor
  · rfl
  · decide

/-- An environment in which every device raises `DiskFileDeviceUnavailable`
on connection. -/
def ex_env_unavail : Env := fun _ => Except.error Err.deviceUnavailable

/-- An environment in which every device holds one undecodable entry. -/
def ex_env_corrupt : Env := fun _ => Except.ok ex_queue_corrupt

/-- C5: an exception while sweeping one location is caught at that
location's boundary and counted as a location-level failure, the sweep
continues with every remaining location, and a device-unavailable error is
logged as a warning while any other error is logged with full detail
(`logger.exception`). -/
theorem C5_per_location_isolation (ring : ContainerRing) (env : Env)
    (o : Node → Bool) (d : String) (rest : List String)
    (st st1 : Stats) (logs : List LogEvent) (e : Err)
    (h : device_sweep ring o (env d) st = (st1, some e)) :
    run_once_go ring env o (d :: rest) st logs =
      run_once_go ring env o rest
        {st1 with device_failures := st1.device_failures + 1}
        (logs ++ [if e = Err.deviceUnavailable then LogEvent.warning d
                  else LogEvent.exception d]) := by
  simp only [run_once_go]
  rw [h]
  cases e <;> simp

theorem C5_witness :
    run_once_go ex_ring ex_env_unavail ex_ack_all ["d0"] initial_stats [] =
      run_once_go ex_ring ex_env_unavail ex_ack_all []
        {initial_stats with device_failures := initial_stats.device_failures + 1}
        ([] ++ [if Err.deviceUnavailable = Err.deviceUnavailable
                then LogEvent.warning "d0" else LogEvent.exception "d0"]) :=
  C5_per_location_isolation ex_ring ex_env_unavail ex_ack_all "d0" []
    initial_stats initial_stats [] Err.deviceUnavailable rfl

/-- C6: a decode failure is not caught by the processor — the call errors
without deleting or rewriting anything; across the whole location sweep the
corrupt entry stays stored and, if its key is scanned, the pass ends in an
error; at the device loop that error is counted as a location-level
failure. -/
theorem C6_decode_error_propagates :
    (∀ (ring : ContainerRing) (o : Node → Bool) (q : Queue) (k : String),
      qget q k = some Blob.corrupt →
      process_object_update ring o q k = Except.error Err.decodeError) ∧
    (∀ (ring : ContainerRing) (o : Node → Bool) (ks : List String)
        (q : Queue) (st : Stats) (k : String),
      qget q k = some Blob.corrupt →
      qget (object_sweep_go ring o ks q st).1 k = some Blob.corrupt ∧
      (k ∈ ks → ((object_sweep_go ring o ks q st).2.2).isSome = true)) ∧
    (∀ (ring : ContainerRing) (env : Env) (o : Node → Bool) (d : String)
        (st : Stats) (logs : List LogEvent) (q : Queue) (k : String),
      env d = Except.ok q →
      qget q k = some Blob.corrupt →
      k ∈ find_updates_entries q →
      ((run_once_go ring env o [d] st logs).1).device_failures
        = st.device_failures + 1) := by
  refine ⟨fun ring o q k hq => process_of_corrupt ring o q k hq,
    fun ring o ks q st k hq => osg_corrupt_pres ring o k ks q st hq, ?_⟩
  intro ring env o d st logs q k henv hq hk
  have herr : ((object_sweep_go ring o (find_updates_entries q) q st).2.2).isSome
      = true :=
    (osg_corrupt_pres ring o k (find_updates_entries q) q st hq).2 hk
  have hdev :=
    (osg_device_counters ring o (find_updates_entries q) q st).2
  simp only [run_once_go, device_sweep, henv, object_sweep]
  cases he : (object_sweep_go ring o (find_updates_entries q) q st).2.2 with
  | none => rw [he] at herr; cases herr
  | some e => cases e <;> simp [run_once_go, hdev]

theorem C6_witness :
    process_object_update ex_ring ex_ack_all ex_queue_corrupt ex_key
      = Except.error Err.decodeError ∧
    ((run_once_go ex_ring ex_env_corrupt ex_ack_all ["d0"]
        initial_stats []).1).device_failures
      = initial_stats.device_failures + 1 :=
  ⟨C6_decode_error_propagates.1 ex_ring ex_ack_all ex_queue_corrupt ex_key
    (by decide),
   C6_decode_error_propagates.2.2 ex_ring ex_env_corrupt ex_ack_all "d0"
    initial_stats [] ex_queue_corrupt ex_key rfl (by decide) (by decide)⟩

/-- C7: an entry with three distinct resolved replicas and empty initial
`successes` is deleted after at most three calls when every call
acknowledges at least one replica that was still unacknowledged at its
start (and previously acknowledged replicas are never re-contacted, so
never regress). -/
theorem C7_three_sweeps_terminate (ring : ContainerRing) (k : String)
    (os : List (Node → Bool)) (q : Queue) (u : UpdateRecord)
    (hq : qget q k = some (Blob.good u))
    (hs0 : u.successes = [])
    (hlen : ((ring u.account u.container).2).length = 3)
    (hnd : (((ring u.account u.container).2).map Node.id).Nodup)
    (hos : os.length = 3)
    (hack : ∀ i (hi : i < os.length) u',
      qget (sweep_calls ring k (os.take i) q) k = some (Blob.good u') →
      ∃ n ∈ (ring u.account u.container).2, n.id ∉ u'.successes ∧
        (os.get ⟨i, hi⟩) n = true) :
    qget (sweep_calls ring k os q) k = none := by
  have hfil : ((ring u.account u.container).2).filter
      (fun n => decide (n.id ∉ u.successes)) = (ring u.account u.container).2 := by
    rw [hs0]
    simp
  apply sweep_progress ring k os q u hq hnd ?_ ?_ hack
  · rw [hfil, hlen, hos]
  · rw [hfil, hlen]
    omega

theorem C7_witness :
    qget (sweep_calls ex_ring ex_key [ex_ack_all, ex_ack_all, ex_ack_all]
      ex_queue) ex_key = none := by
  apply C7_three_sweeps_terminate ex_ring ex_key
    [ex_ack_all, ex_ack_all, ex_ack_all] ex_queue ex_update
    (by decide) rfl (by decide) (by decide) (by decide)
  intro i hi u' hu'
  have hi3 : i < 3 := by simpa using hi
  interval_cases i
  · have h0 : qget (sweep_calls ex_ring ex_key
        ([ex_ack_all, ex_ack_all, ex_ack_all].take 0) ex_queue) ex_key
        = some (Blob.good ex_update) := by decide
    obtain rfl : ex_update = u' :=
      Blob.good.inj (Option.some.inj (h0.symm.trans hu'))
    refine ⟨Node.mk 1 "n1", by decide, by decide, rfl⟩
  · have h1 : qget (sweep_calls ex_ring ex_key
        ([ex_ack_all, ex_ack_all, ex_ack_all].take 1) ex_queue) ex_key
        = none := by decide
    rw [h1] at hu'
    cases hu'
  · have h2 : qget (sweep_calls ex_ring ex_key
        ([ex_ack_all, ex_ack_all, ex_ack_all].take 2) ex_queue) ex_key
        = none := by decide
    rw [h2] at hu'
    cases hu'

/-- C8: every delivery attempt of a call receives a headers mapping with no
`user-agent` key (compared case-insensitively), even when the stored entry
carries one — the key is stripped before any attempt. -/
theorem C8_no_user_agent_delivered (ring : ContainerRing) (o : Node → Bool)
    (q : Queue) (k : String) (u : UpdateRecord) (out : ProcOut)
    (hq : qget q k = some (Blob.good u))
    (hp : process_object_update ring o q k = Except.ok out) :
    (out.deliveries.all (fun d =>
      d.headers.all (fun kv =>
        decide (lower_key kv.1 ≠ lower_key "user-agent")))) = true := by
  have hout : out = proc_good ring o q k u :=
    Except.ok.inj (hp.symm.trans (process_of_good ring o q k u hq))
  subst hout
  rw [proc_good_deliveries]
  unfold proc_deliveries
  simp only [List.all_eq_true, List.mem_map]
  rintro d ⟨n, hn, rfl⟩ kv hkv
  have hfil := (List.mem_filter.mp hkv).2
  simpa using hfil

theorem C8_witness :
    ((proc_good ex_ring ex_ack_all ex_queue ex_key ex_update).deliveries.all
      (fun d => d.headers.all (fun kv =>
        decide (lower_key kv.1 ≠ lower_key "user-agent")))) = true :=
  C8_no_user_agent_delivered ex_ring ex_ack_all ex_queue ex_key ex_update
    (proc_good ex_ring ex_ack_all ex_queue ex_key ex_update)
    (by decide)
    (process_of_good ex_ring ex_ack_all ex_queue ex_key ex_update (by decide))

/-- C9: `run_once` starts every full sweep from freshly zeroed statistics,
and during a location sweep each scanned key first bumps `found_updates`
by one and then exactly one of `success` or `failures` by one, by the
processor's boolean result. -/
theorem C9_stats_reset_and_tally :
    (∀ (ring : ContainerRing) (env : Env) (o : Node → Bool)
        (devices : List String),
      run_once ring env o devices
        = run_once_go ring env o devices (Stats.mk 0 0 0 0 0) []) ∧
    (∀ (ring : ContainerRing) (o : Node → Bool) (k : String) (ks : List String)
        (q : Queue) (st : Stats) (out : ProcOut),
      process_object_update ring o q k = Except.ok out →
      object_sweep_go ring o (k :: ks) q st
        = object_sweep_go ring o ks out.queue
          (if out.ret
            then {st with found_updates := st.found_updates + 1, success := st.success + 1}
            else {st with found_updates := st.found_updates + 1, failures := st.failures + 1})) := by
  constructor
  · intro ring env o devices
    rfl
  · intro ring o k ks q st out hp
    simp only [object_sweep_go, hp]

theorem C9_witness :
    object_sweep_go ex_ring ex_ack_all [ex_key] ex_queue initial_stats
      = object_sweep_go ex_ring ex_ack_all []
        (proc_good ex_ring ex_ack_all ex_queue ex_key ex_update).queue
        (if (proc_good ex_ring ex_ack_all ex_queue ex_key ex_update).ret
          then {initial_stats with found_updates := initial_stats.found_updates + 1, success := initial_stats.success + 1}
          else {initial_stats with found_updates := initial_stats.found_updates + 1, failures := initial_stats.failures + 1}) :=
  C9_stats_reset_and_tally.2 ex_ring ex_ack_all ex_key [] ex_queue
    initial_stats (proc_good ex_ring ex_ack_all ex_queue ex_key ex_update)
    (process_of_good ex_ring ex_ack_all ex_queue ex_key ex_update (by decide))

/-- C10: whenever a call re-persists an entry, the stored blob is exactly
the loaded record with only `successes` replaced by the extended list; in
particular the stored headers are the loaded headers unchanged — the
`user-agent` stripping acted on a copy that is never written back. -/
theorem C10_repersist_only_successes (ring : ContainerRing) (o : Node → Bool)
    (q : Queue) (k : String) (u : UpdateRecord) (out : ProcOut) (b : Blob)
    (hq : qget q k = some (Blob.good u))
    (hp : process_object_update ring o q k = Except.ok out)
    (hb : QueueOp.put k b ∈ out.ops) :
    b = Blob.good {u with successes := (proc_loop ring o u).1} ∧
    ({u with successes := (proc_loop ring o u).1} : UpdateRecord).headers
      = u.headers ∧
    u.successes ⊆ (proc_loop ring o u).1 := by
  have hout : out = proc_good ring o q k u :=
    Except.ok.inj (hp.symm.trans (process_of_good ring o q k u hq))
  subst hout
  rw [proc_good_eq] at hb
  split at hb
  · simp at hb
  · split at hb
    · refine ⟨?_, rfl, un_successes_sub o _ u.successes true false⟩
      simpa using hb
    · simp at hb

theorem C10_witness :
    Blob.good (UpdateRecord.mk "AUTH_test" "c" "o" "PUT"
        [("User-Agent", "swift-client"), ("x-timestamp", "123")] [1, 3])
      = Blob.good {ex_update with
          successes := (proc_loop ex_ring ex_ack_not2 ex_update).1} ∧
    ({ex_update with
        successes := (proc_loop ex_ring ex_ack_not2 ex_update).1} :
        UpdateRecord).headers = ex_update.headers ∧
    ex_update.successes ⊆ (proc_loop ex_ring ex_ack_not2 ex_update).1 :=
  C10_repersist_only_successes ex_ring ex_ack_not2 ex_queue ex_key ex_update
    (proc_good ex_ring ex_ack_not2 ex_queue ex_key ex_update)
    (Blob.good (UpdateRecord.mk "AUTH_test" "c" "o" "PUT"
      [("User-Agent", "swift-client"), ("x-timestamp", "123")] [1, 3]))
    (by decide)
    (process_of_good ex_ring ex_ack_not2 ex_queue ex_key ex_update (by decide))
    (by decide)
